import Mathlib

/-!
# Verification of the Othello MCTS engine

A shallow embedding of the repository's Rust sources (src/mechanics.rs,
src/gameplay.rs, src/mcst.rs, src/data.rs, src/agent/implementations.rs)
into Lean 4, with theorems settling the specification's claims.

Modelling conventions:
* `u8` values are `Nat`; the wrapping additions of `mechanics.rs` are
  written `(x + d) % 256` explicitly.
* The 8x8 board is a list of rows; `Board.at` guards indices exactly as
  the Rust accessor does, so out-of-range reads return `none`.
* The recursive ray walks of `mechanics.rs` recurse along a direction
  until they leave the board.  The Rust recursion terminates because a
  ray of on-board cells in a fixed non-zero direction has length at most
  8 (coordinates move monotonically inside `0..8`); the embedding makes
  that bound explicit with a fuel argument fixed to 16, which strictly
  exceeds the deepest possible call chain (at most 9 nested calls: one
  possibly off-board origin plus at most 8 on-board cells), so for every
  reachable call the fuelled function computes exactly what the Rust
  recursion computes.
* The `RefCell` move cache of `Gamestate` is semantically a memo of
  `gen_moves`; the main model recomputes `gen_moves` instead (the cache
  never changes the list returned).  The cache is modelled explicitly as
  `GamestateC` where the claim under study is about the cache itself.
* Rust panics are modelled by `Option`, `none` meaning a panic.
-/

namespace Othello

/-- The two players in the game (mechanics.rs `Players`). -/
inductive Players where
  | white : Players
  | black : Players
deriving DecidableEq, Repr

/-- The state of a board tile (mechanics.rs `States`). -/
inductive States where
  | taken : Players → States
  | empty : States
deriving DecidableEq, Repr

/-- All 8 surrounding directions in a grid (mechanics.rs `AROUND`);
`255` is the u8 encoding of `-1`. -/
def AROUND : List (Nat × Nat) :=
  [(255, 1), (0, 1), (1, 1),
   (255, 0), (1, 0),
   (255, 255), (0, 255), (1, 255)]

/-- The game board (mechanics.rs `Board`): an 8x8 grid of tile states,
modelled as a list of 8 rows of 8 cells (row-major, `pieces[y][x]`). -/
structure Board where
  pieces : List (List States)
deriving DecidableEq, Repr

/-- Helper type used to describe flipping outcomes (mechanics.rs `FlipType`). -/
inductive FlipType where
  | valid : FlipType
  | degenerate : FlipType
  | invalid : FlipType
deriving DecidableEq, Repr

/-- `Board::new`: a board with all cells empty. -/
def Board.new : Board :=
  ⟨List.replicate 8 (List.replicate 8 States.empty)⟩

/-- The numeric value of one tile as summed by `Board::score`. -/
def States.scoreVal : States → Int
  | States.empty => 0
  | States.taken Players.black => 1
  | States.taken Players.white => -1

/-- `Board::score`: positive if Black is winning, negative if White is. -/
def Board.score (b : Board) : Int :=
  (b.pieces.map fun row => (row.map States.scoreVal).sum).sum

/-- `Board::change`: sets the tile at `(x, y)`.  The Rust code indexes
without a bounds check and every call site has `x, y < 8`; `List.set` is
the identity out of range, which never happens on reachable calls. -/
def Board.change (b : Board) (x y : Nat) (val : States) : Board :=
  ⟨match b.pieces.get? y with
    | some row => b.pieces.set y (row.set x val)
    | none => b.pieces⟩

/-- `Board::at`: the tile at `(x, y)` or `none` if out of bounds. -/
def Board.at (b : Board) (x y : Nat) : Option States :=
  if x < 8 ∧ y < 8 then (b.pieces.get? y).bind (fun row => row.get? x)
  else none

/-- `Board::can_flip_toward_help`, with the recursion depth made explicit:
fuel 16 strictly exceeds any chain the guard `Board.at` lets through. -/
def Board.canFlipTowardHelp (b : Board) (fuel : Nat) (x y dx dy : Nat)
    (origin : Players) : FlipType :=
  match fuel with
  | 0 => FlipType.invalid
  | fuel + 1 =>
    let nx := (x + dx) % 256
    let ny := (y + dy) % 256
    match b.at nx ny with
    | some (States.taken q) =>
      if origin ≠ q then
        if b.canFlipTowardHelp fuel nx ny dx dy origin ≠ FlipType.invalid then
          FlipType.valid
        else FlipType.invalid
      else FlipType.degenerate
    | _ => FlipType.invalid

/-- `Board::can_flip_toward`. -/
def Board.canFlipToward (b : Board) (x y dx dy : Nat) (origin : Players) : Bool :=
  b.canFlipTowardHelp 16 x y dx dy origin = FlipType.valid

/-- `Board::can_move`: whether player `p` can place a piece at `(x, y)`. -/
def Board.canMove (b : Board) (x y : Nat) (p : Players) : Bool :=
  match b.at x y with
  | some States.empty => AROUND.any fun d => b.canFlipToward x y d.1 d.2 p
  | _ => false

/-- `Board::get_moves`: all valid moves for player `p`, `x` outer, `y` inner. -/
def Board.getMoves (b : Board) (p : Players) : List (Nat × Nat) :=
  (List.range 8).flatMap fun x =>
    (List.range 8).filterMap fun y =>
      if b.canMove x y p then some (x, y) else none

/-- `Board::flip_toward` (fuelled like `canFlipTowardHelp`): attempts to
flip pieces from `(x, y)` (not inclusive) towards `(dx, dy)`, returning
the flipped locations (`none` when the ray leaves the board) and the
board with those cells changed. -/
def Board.flipToward (b : Board) (fuel : Nat) (x y dx dy : Nat)
    (origin : Players) : Option (List (Nat × Nat)) × Board :=
  match fuel with
  | 0 => (none, b)
  | fuel + 1 =>
    let nx := (x + dx) % 256
    let ny := (y + dy) % 256
    match b.at nx ny with
    | some (States.taken q) =>
      if origin ≠ q then
        match b.flipToward fuel nx ny dx dy origin with
        | (some futureList, b') =>
          (some (futureList ++ [(nx, ny)]), b'.change nx ny (States.taken origin))
        | (none, b') => (none, b')
      else (some [], b)
    | _ => (none, b)

/-- The `for` loop of `Board::flip_all` over the remaining directions. -/
def Board.flipAllGo (b : Board) (x y : Nat) (origin : Players) :
    List (Nat × Nat) → List (Nat × Nat) × Board
  | [] => ([], b)
  | d :: rest =>
    match b.flipToward 16 x y d.1 d.2 origin with
    | (r, b') =>
      match b'.flipAllGo x y origin rest with
      | (places, b'') => (r.getD [] ++ places, b'')

/-- `Board::flip_all`: flips all valid pieces in every direction around
`(x, y)` and returns the list of flipped pieces with the new board. -/
def Board.flipAll (b : Board) (x y : Nat) : List (Nat × Nat) × Board :=
  match b.at x y with
  | some (States.taken origin) => b.flipAllGo x y origin AROUND
  | _ => ([], b)

/-- `Board::flip_toward_fast_help` (fuelled): flips the ray's tiles when
it is valid and reports the `FlipType`. -/
def Board.flipTowardFastHelp (b : Board) (fuel : Nat) (x y dx dy : Nat)
    (origin : Players) : FlipType × Board :=
  match fuel with
  | 0 => (FlipType.invalid, b)
  | fuel + 1 =>
    let nx := (x + dx) % 256
    let ny := (y + dy) % 256
    match b.at nx ny with
    | some (States.taken q) =>
      if origin ≠ q then
        match b.flipTowardFastHelp fuel nx ny dx dy origin with
        | (f, b') =>
          if f ≠ FlipType.invalid then
            (FlipType.valid, b'.change nx ny (States.taken origin))
          else (FlipType.invalid, b')
      else (FlipType.degenerate, b)
    | _ => (FlipType.invalid, b)

/-- The `for` loop of `Board::flip_all_fast` over the remaining directions. -/
def Board.flipAllFastGo (b : Board) (x y : Nat) (origin : Players) :
    List (Nat × Nat) → Bool × Board
  | [] => (false, b)
  | d :: rest =>
    match b.flipTowardFastHelp 16 x y d.1 d.2 origin with
    | (f, b') =>
      match b'.flipAllFastGo x y origin rest with
      | (any, b'') => ((f = FlipType.valid) || any, b'')

/-- `Board::flip_all_fast`: flips tiles and returns whether any direction
was a valid flip, without building the list of flipped tiles. -/
def Board.flipAllFast (b : Board) (x y : Nat) : Bool × Board :=
  match b.at x y with
  | some (States.taken origin) => b.flipAllFastGo x y origin AROUND
  | _ => (false, b)

/-! ## gameplay.rs -/

/-- A player's move (gameplay.rs `Turn`): a board position or `none` for pass. -/
abbrev Turn := Option (Nat × Nat)

/-- The game state (gameplay.rs `Gamestate`) without the `RefCell` move
cache: the cache only memoizes `gen_moves` of the current board and turn
and is cleared on every mutation, so the observable board/turn dynamics
are those of this cache-free state.  The cache is modelled separately as
`GamestateC` for the claim about `Gamestate` equality. -/
structure Gamestate where
  board : Board
  turn : Nat
deriving DecidableEq, Repr

/-- `Gamestate::new`: the standard initial configuration. -/
def Gamestate.new : Gamestate :=
  let b := Board.new
  let b := b.change 3 3 (States.taken Players.white)
  let b := b.change 4 4 (States.taken Players.white)
  let b := b.change 3 4 (States.taken Players.black)
  let b := b.change 4 3 (States.taken Players.black)
  { board := b, turn := 0 }

/-- `Gamestate::new_from`. -/
def Gamestate.newFrom (board : Board) (turn : Nat) : Gamestate :=
  { board := board, turn := turn }

/-- The player whose half-move counter this is (`turn & 1 == 0` means Black). -/
def Gamestate.currentPlayer (g : Gamestate) : Players :=
  if g.turn % 2 = 0 then Players.black else Players.white

/-- `Gamestate::gen_moves`: the list of valid moves for the current
player; `[none]` when only passing is possible, `[]` when the game is over. -/
def Gamestate.genMoves (g : Gamestate) : List Turn :=
  let possibleTurn := if g.turn % 2 = 0 then Players.black else Players.white
  let moves := g.board.getMoves possibleTurn
  let isTerminal :=
    if moves.isEmpty then
      match possibleTurn with
      | Players.black => (g.board.getMoves Players.white).isEmpty
      | Players.white => (g.board.getMoves Players.black).isEmpty
    else false
  if isTerminal then []
  else if moves.isEmpty then [none]
  else moves.map fun t => some t

/-- `Gamestate::get_moves`.  In the Rust code this memoizes `gen_moves`
in the `RefCell` cache; the cache always holds exactly `gen_moves` of the
current board and turn, so the returned list is `gen_moves`. -/
def Gamestate.getMoves (g : Gamestate) : List Turn :=
  g.genMoves

/-- `Gamestate::whose_turn`: `empty` if the game is over. -/
def Gamestate.whoseTurn (g : Gamestate) : States :=
  if g.getMoves.isEmpty then States.empty
  else if g.turn % 2 = 0 then States.taken Players.black
  else States.taken Players.white

/-- `Gamestate::score`. -/
def Gamestate.score (g : Gamestate) : Int :=
  g.board.score

/-- `Gamestate::valid_move`. -/
def Gamestate.validMove (g : Gamestate) (m : Turn) : Bool :=
  g.getMoves.contains m

/-- `Gamestate::make_move`: applies the move with full flipping logic,
returning the flipped positions on success (`none` if invalid) together
with the resulting state.  The turn counter is a `u8` in Rust, hence the
`% 256`. -/
def Gamestate.makeMove (g : Gamestate) (turn : Turn) :
    Option (List (Nat × Nat)) × Gamestate :=
  match g.whoseTurn with
  | States.taken whoseTurn =>
    if g.getMoves.contains turn then
      let g' : Gamestate := { g with turn := (g.turn + 1) % 256 }
      match turn with
      | some (x, y) =>
        let b := g'.board.change x y (States.taken whoseTurn)
        match b.flipAll x y with
        | (flips, b') => (some flips, { g' with board := b' })
      | none => (some [], g')
    else (none, g)
  | States.empty => (none, g)

/-- `Gamestate::make_move_fast`: like `make_move` but using
`flip_all_fast`, returning only success. -/
def Gamestate.makeMoveFast (g : Gamestate) (turn : Turn) : Bool × Gamestate :=
  match g.whoseTurn with
  | States.taken whoseTurn =>
    if g.getMoves.contains turn then
      let g' : Gamestate := { g with turn := (g.turn + 1) % 256 }
      match turn with
      | some (x, y) =>
        let b := g'.board.change x y (States.taken whoseTurn)
        (true, { g' with board := (b.flipAllFast x y).2 })
      | none => (true, g')
    else (false, g)
  | States.empty => (false, g)

/-- `Gamestate::make_moves_fast`: applies a sequence, stopping at the
first invalid move (already-applied moves are not rolled back). -/
def Gamestate.makeMovesFast (g : Gamestate) : List Turn → Bool × Gamestate
  | [] => (true, g)
  | t :: rest =>
    match g.makeMoveFast t with
    | (true, g') => g'.makeMovesFast rest
    | (false, g') => (false, g')

/-- Modelled from the spec: `Gamestate::is_terminal` is called by
`McstAgent::cycle` and `McstAgent::rollout` (mcst.rs) but its definition
is not among the provided source files.  The spec defines it by
"`is_terminal`: true iff *neither* side has a coordinate move". -/
def Gamestate.isTerminal (g : Gamestate) : Bool :=
  (g.board.getMoves Players.black).isEmpty
    && (g.board.getMoves Players.white).isEmpty

/-! ### The `RefCell` move cache, modelled explicitly (for the equality claim)

gameplay.rs line 14 derives `PartialEq` for `Gamestate`, whose fields are
the board, the turn counter and `moves: RefCell<Option<Rc<Vec<Turn>>>>`.
The derived comparison compares all three fields (`RefCell`, `Option`,
`Rc` and `Vec` all compare by contents), so the cache participates in
equality.  `GamestateC` carries that third field; Rust's derived `==` is
exactly Lean's structural equality `=` on `GamestateC`. -/
structure GamestateC where
  board : Board
  turn : Nat
  movesCache : Option (List Turn)
deriving DecidableEq, Repr

/-- `Gamestate::new`, with the cache field (`RefCell::new(None)`). -/
def GamestateC.new : GamestateC :=
  { board := Gamestate.new.board, turn := 0, movesCache := none }

/-- The cache-free projection of a cached state. -/
def GamestateC.core (g : GamestateC) : Gamestate :=
  { board := g.board, turn := g.turn }

/-- `Gamestate::get_moves` on the cached state: computes and stores
`gen_moves` on a cache miss, and returns the cached list. -/
def GamestateC.getMoves (g : GamestateC) : List Turn × GamestateC :=
  match g.movesCache with
  | some moves => (moves, g)
  | none =>
    let moves := g.core.genMoves
    (moves, { g with movesCache := some moves })

/-! ### The move-history codec (gameplay.rs `str_to_loc`, data.rs) -/

/-- Rust `str.split(sep)` for a one-character separator, on character
lists: splitting the empty string yields `[[]]`, separators at the ends
yield empty tokens. -/
def splitOnChar (sep : Char) (cs : List Char) : List (List Char) :=
  cs.foldr
    (fun c acc =>
      if c = sep then [] :: acc
      else
        match acc with
        | h :: t => (c :: h) :: t
        | [] => [[c]])
    [[]]

/-- Rust `<u8 as FromStr>::from_str`: an optional leading `+`, then one
or more base-10 digits, value at most 255.  Anything else is an error. -/
def parseU8 (cs : List Char) : Option Nat :=
  let ds := match cs with
    | '+' :: rest => rest
    | _ => cs
  if ds.isEmpty then none
  else if ds.all Char.isDigit then
    let v := ds.foldl (fun a c => a * 10 + (c.toNat - 48)) 0
    if v < 256 then some v else none
  else none

/-- `gameplay.rs str_to_loc`: strips spaces, splits on `,`, parses the
first two components as `u8` and checks both are below 8. -/
def strToLoc (cs : List Char) : Option (Nat × Nat) :=
  let stripped := cs.filter fun c => c ≠ ' '
  let parts := splitOnChar ',' stripped
  match parts.get? 0, parts.get? 1 with
  | some xs, some ys =>
    match parseU8 xs, parseU8 ys with
    | some x, some y => if x < 8 ∧ y < 8 then some (x, y) else none
    | _, _ => none
  | _, _ => none

/-- The decimal rendering of a `u8` coordinate, as `format!("{x}")`
produces it. -/
def natChars (n : Nat) : List Char :=
  Nat.toDigits 10 n

/-- `data.rs turns_to_str`: renders each turn (`x,y`, or the empty
string for a pass) and joins the pieces with `;`. -/
def turnsToStr (turns : List Turn) : List Char :=
  List.intercalate [';']
    (turns.map fun t =>
      match t with
      | some (x, y) => natChars x ++ ',' :: natChars y
      | none => [])

/-- `data.rs str_to_turns`: splits on `;`; an empty token is a pass, any
other token must parse via `str_to_loc`, else the whole parse fails. -/
def strToTurns (cs : List Char) : Option (List Turn) :=
  let rec go : List (List Char) → Option (List Turn)
    | [] => some []
    | trial :: rest =>
      if trial = [] then (go rest).map fun ts => none :: ts
      else
        match strToLoc trial with
        | some loc => (go rest).map fun ts => some loc :: ts
        | none => none
  go (splitOnChar ';' cs)

/-! ## mcst.rs

The `HashMap<Turn, McstNode>` of children is modelled as an association
list.  The tree code consults the map only through `contains_key`, `get`,
`get_mut`, `insert` (always guarded by a `contains_key` check, so keys
stay unique) and `remove`; the association list implements those with
first-match lookup, which agrees with `HashMap` on unique keys. -/

/-- A single node in the Monte Carlo search tree (mcst.rs `McstNode`):
children keyed by the turn that reaches them, win and rollout counts,
and the game state at the node. -/
inductive McstNode where
  | mk : List (Turn × McstNode) → Nat → Nat → Gamestate → McstNode
deriving Repr

/-- The `children` field. -/
def McstNode.children : McstNode → List (Turn × McstNode)
  | McstNode.mk cs _ _ _ => cs

/-- The `wins` field. -/
def McstNode.wins : McstNode → Nat
  | McstNode.mk _ w _ _ => w

/-- The `total` field. -/
def McstNode.total : McstNode → Nat
  | McstNode.mk _ _ t _ => t

/-- The `game` field. -/
def McstNode.game : McstNode → Gamestate
  | McstNode.mk _ _ _ g => g

/-- `McstNode::new`. -/
def McstNode.new (game : Gamestate) : McstNode :=
  McstNode.mk [] 0 0 game

/-- `HashMap::get` on the children map. -/
def childGet (cs : List (Turn × McstNode)) (t : Turn) : Option McstNode :=
  match cs with
  | [] => none
  | (k, v) :: rest => if k = t then some v else childGet rest t

/-- `HashMap::contains_key` on the children map. -/
def childContains (cs : List (Turn × McstNode)) (t : Turn) : Bool :=
  (childGet cs t).isSome

/-- The effect of mutating the child at key `t` through `HashMap::get_mut`. -/
def childReplace (cs : List (Turn × McstNode)) (t : Turn) (c : McstNode) :
    List (Turn × McstNode) :=
  match cs with
  | [] => []
  | (k, v) :: rest => if k = t then (k, c) :: rest else (k, v) :: childReplace rest t c

/-- `McstNode::update`: record a rollout result. -/
def McstNode.update (n : McstNode) (win : Bool) : McstNode :=
  McstNode.mk n.children (if win then n.wins + 1 else n.wins) (n.total + 1) n.game

/-- `McstNode::search`: follow a path of turns down the child links. -/
def McstNode.search : McstNode → List Turn → Option McstNode
  | n, [] => some n
  | n, t :: rest =>
    match childGet n.children t with
    | some c => c.search rest
    | none => none

/-- The recursion of `McstTree::add_child` (mcst.rs lines 130-145):
descend to the node at `path` (`none` models the "path was not valid"
panic), refuse an existing child (the "already contained child" panic)
and an illegal move (the "child didn't make real move" panic), otherwise
insert a fresh child reached by `link`. -/
def McstNode.addChildAt : McstNode → List Turn → Turn → Option McstNode
  | n, [], link =>
    if childContains n.children link then none
    else
      match n.game.makeMoveFast link with
      | (true, newGame) =>
        some (McstNode.mk (n.children ++ [(link, McstNode.new newGame)]) n.wins n.total n.game)
      | (false, _) => none
  | n, t :: rest, link =>
    match childGet n.children t with
    | some c =>
      match c.addChildAt rest link with
      | some c' => some (McstNode.mk (childReplace n.children t c') n.wins n.total n.game)
      | none => none
    | none => none

/-- The Monte Carlo search tree (mcst.rs `McstTree`). -/
structure McstTree where
  root : McstNode

/-- `McstTree::new`. -/
def McstTree.new (game : Gamestate) : McstTree :=
  ⟨McstNode.new game⟩

/-- `McstTree::add_child` (`none` models its panics). -/
def McstTree.addChild (tree : McstTree) (path : List Turn) (link : Turn) :
    Option McstTree :=
  (tree.root.addChildAt path link).map fun r => ⟨r⟩

/-- mcst.rs `SelectionError`. -/
inductive SelectionError where
  | notANode : List Turn → SelectionError
deriving Repr, DecidableEq

/-- mcst.rs `ExpansionError`. -/
inductive ExpansionError where
  | illegalMove : Turn → ExpansionError
  | alreadyExpanded : Turn → ExpansionError
deriving Repr, DecidableEq

/-- mcst.rs `RolloutError`. -/
inductive RolloutError where
  | illegalMove : List Turn → RolloutError
deriving Repr, DecidableEq

/-- mcst.rs `CycleError`. -/
inductive CycleError where
  | selection : SelectionError → CycleError
  | expansion : ExpansionError → CycleError
  | rollout : RolloutError → CycleError
deriving Repr, DecidableEq

/-- The back-propagation loop of `McstAgent::cycle` (mcst.rs lines
321-324): `update` every node addressed by a prefix of `path`, root
included.  `none` models the `node_from_path_mut` panic on an invalid
path (the cycle only reaches this loop with a validated path). -/
def McstNode.incrementPath : McstNode → List Turn → Bool → Option McstNode
  | n, [], win => some (n.update win)
  | n, t :: rest, win =>
    match childGet n.children t with
    | some c =>
      match c.incrementPath rest win with
      | some c' => some (McstNode.mk (childReplace n.children t c') (if win then n.wins + 1 else n.wins) (n.total + 1) n.game)
      | none => none
    | none => none

/-- The loop of `McstAgent::rollout` (mcst.rs lines 271-291): alternate
the rollout and opponent agents (modelled as functions from the state to
a move) until the game is terminal, then score for `myColor`.  The Rust
loop terminates because every legal move either fills a square or is a
pass followed by a coordinate move; the fuel makes that explicit
(`none` = fuel exhausted, which no reachable run hits for fuel above the
number of remaining moves). -/
def rolloutLoop (rollA oppA : Gamestate → Turn) (myColor : Players) :
    Nat → Gamestate → Bool → List Turn → Option (Except RolloutError Bool)
  | 0, _, _, _ => none
  | fuel + 1, game, myTurn, moveHistory =>
    if game.isTerminal then
      some (Except.ok
        (match myColor with
         | Players.black => 0 < game.score
         | Players.white => game.score < 0))
    else
      let playerMove := if myTurn then rollA game else oppA game
      let moveHistory := moveHistory ++ [playerMove]
      match game.makeMoveFast playerMove with
      | (true, game') => rolloutLoop rollA oppA myColor fuel game' (!myTurn) moveHistory
      | (false, _) => some (Except.error (RolloutError.illegalMove moveHistory))

/-- The expansion step of `McstAgent::cycle` (mcst.rs lines 306-314,
folding in the validations of `McstAgent::expand`, lines 243-255):
skipped when the selected node is terminal; otherwise ask the expansion
policy for a move, demand it be legal and unexpanded, and attach the new
child.  The outer `Option` models the `add_child` panics, none of which
can fire because the validations directly before them succeed. -/
def expandStep (expander : McstTree → List Turn → Turn) (tree : McstTree)
    (selected : McstNode) (path : List Turn) :
    Option (Except ExpansionError (List Turn × McstTree)) :=
  if selected.game.isTerminal then some (Except.ok (path, tree))
  else
    let link := expander tree path
    if selected.game.getMoves.contains link then
      if childContains selected.children link then
        some (Except.error (ExpansionError.alreadyExpanded link))
      else
        match tree.addChild path link with
        | some tree' => some (Except.ok (path ++ [link], tree'))
        | none => none
    else some (Except.error (ExpansionError.illegalMove link))

/-- `McstAgent::cycle` (mcst.rs lines 298-327), with the agent's policies
passed as functions: `selector` models `SelectionPolicy::select`,
`expander` models `ExpansionPolicy::expand`, `rollA`/`oppA` the rollout
and opponent `Agent`s.  The result pairs the returned
`Result<bool, CycleError>` with the tree after the call; `none` models a
panic (terminal root in `rollout`) or rollout fuel exhaustion. -/
def cycle (fuel : Nat) (selector : McstTree → Option (List Turn))
    (expander : McstTree → List Turn → Turn) (rollA oppA : Gamestate → Turn)
    (tree : McstTree) : Option (Except CycleError Bool × McstTree) :=
  match selector tree with
  | none => some (Except.ok false, tree)
  | some path =>
    match tree.root.search path with
    | none => some (Except.error (CycleError.selection (SelectionError.notANode path)), tree)
    | some selected =>
      match expandStep expander tree selected path with
      | none => none
      | some (Except.error e) => some (Except.error (CycleError.expansion e), tree)
      | some (Except.ok (path, tree)) =>
        match tree.root.search path with
        | none => none
        | some node =>
          match tree.root.game.whoseTurn with
          | States.empty => none  -- the "initial game is over?" panic
          | States.taken myColor =>
            match rolloutLoop rollA oppA myColor fuel node.game (path.length % 2 = 0) [] with
            | none => none
            | some (Except.error e) => some (Except.error (CycleError.rollout e), tree)
            | some (Except.ok win) =>
              match tree.root.incrementPath path win with
              | some root' => some (Except.ok true, ⟨root'⟩)
              | none => none

/-- `k` cycles in a row, each required to report progress (`Ok(true)`),
as a caller of `cycle` runs them. -/
def runCycles (fuel : Nat) (selector : McstTree → Option (List Turn))
    (expander : McstTree → List Turn → Turn) (rollA oppA : Gamestate → Turn) :
    Nat → McstTree → Option McstTree
  | 0, tree => some tree
  | k + 1, tree =>
    match cycle fuel selector expander rollA oppA tree with
    | some (Except.ok true, tree') => runCycles fuel selector expander rollA oppA k tree'
    | _ => none

/-- `McstAgent::next_two_moves` (mcst.rs lines 367-395): advance the tree
past two moves, re-rooting at the `mv1`→`mv2` grandchild.  `none` models
the function's `unwrap`/`add_child` panics (all unreachable, as its
comments argue). -/
def nextTwoMoves (tree : McstTree) (mv1 mv2 : Turn) : Option (Bool × McstTree) :=
  if (tree.root.game.makeMovesFast [mv1, mv2]).1 = false then some (false, tree)
  else
    -- add first child if not in tree
    let step1 : Option McstTree :=
      if childContains tree.root.children mv1 then some tree
      else tree.addChild [] mv1
    match step1 with
    | none => none
    | some tree1 =>
      match childGet tree1.root.children mv1 with
      | none => none
      | some child1 =>
        -- add second child if not in tree
        let step2 : Option McstTree :=
          if childContains child1.children mv2 then some tree1
          else tree1.addChild [mv1] mv2
        match step2 with
        | none => none
        | some tree2 =>
          match childGet tree2.root.children mv1 with
          | none => none
          | some child1' =>
            match childGet child1'.children mv2 with
            | none => none
            | some grandchild => some (true, ⟨grandchild⟩)

/-- The opponent of a player (the side the `match` of `gen_moves` checks
when the mover has no move). -/
def Players.opponentOf : Players → Players
  | Players.black => Players.white
  | Players.white => Players.black

/-- The `FlipType` a slow-path `flip_toward` result corresponds to. -/
def flipResultType (r : Option (List (Nat × Nat))) : FlipType :=
  match r with
  | none => FlipType.invalid
  | some [] => FlipType.degenerate
  | some (_ :: _) => FlipType.valid

/-- The characters `turns_to_str` renders for one turn. -/
def turnChars (t : Turn) : List Char :=
  match t with
  | some (x, y) => natChars x ++ ',' :: natChars y
  | none => []

/-- The UCB score `UctSelection::select_mine` computes
(implementations.rs lines 211-220) for a child with `w` wins and `n`
visits, where `total` is the number the caller passes for the parent:
the exploration term divides `ln total` by the child's *win* count `w`.
Real numbers stand in for the `f64` arithmetic; the divergence
established below is structural, not a rounding artefact. -/
noncomputable def uctScoreCode (c w n total : ℝ) : ℝ :=
  w / n + c * Real.sqrt (Real.log total / w)

/-- The UCB1 score the claim (and spec §9) mandates: the exploration
term divides `ln total` by the child's visit count `n`. -/
noncomputable def uctScoreSpec (c w n total : ℝ) : ℝ :=
  w / n + c * Real.sqrt (Real.log total / n)

/-- A selection policy that always selects the root. -/
def selectRoot : McstTree → Option (List Turn) := fun _ => some []

/-- An expansion policy that always proposes a fixed move. -/
def expandConst (link : Turn) : McstTree → List Turn → Turn := fun _ _ => link

/-- An agent that always proposes a fixed move. -/
def agentConst (mv : Turn) : Gamestate → Turn := fun _ => mv

/-- The fresh tree of the concrete error run. -/
def c2tree : McstTree := McstTree.new Gamestate.new

/-- One cycle on the fresh opening tree: the selector picks the root,
the expander expands Black (2,3), and the rollout agents propose the
illegal (0,0), so the rollout errors after the child was attached. -/
def c2run : Option (Except CycleError Bool × McstTree) :=
  cycle 10 selectRoot (expandConst (some (2, 3)))
    (agentConst (some (0, 0))) (agentConst (some (0, 0))) c2tree

/-- The tree the erroring run leaves behind: the fresh tree plus the one
expanded child. -/
def c2treeAfter : McstTree :=
  ⟨McstNode.mk [(some (2, 3), McstNode.new (Gamestate.new.makeMoveFast (some (2, 3))).2)]
    0 0 Gamestate.new⟩

/-- A board one move from the end of the game: every cell is Black
except the empty (0,0) and the White (1,0); Black to move must play
(0,0), which ends the game. -/
def nearEndBoard : Board :=
  ⟨(States.empty :: States.taken Players.white ::
      List.replicate 6 (States.taken Players.black))
    :: List.replicate 7 (List.replicate 8 (States.taken Players.black))⟩

/-- The near-terminal game used by the concrete successful cycles. -/
def nearEndGame : Gamestate := { board := nearEndBoard, turn := 0 }

/-! ## Theorems: the gameplay layer (claims C3, C4) -/

/-- `make_move_fast` succeeds exactly on moves of the legal-move list. -/
theorem makeMoveFast_fst (g : Gamestate) (m : Turn) :
    (g.makeMoveFast m).1 = true ↔ m ∈ g.getMoves := by
  unfold Gamestate.makeMoveFast Gamestate.whoseTurn
  by_cases h : g.getMoves.isEmpty
  · rw [List.isEmpty_iff] at h
    simp [h]
  · by_cases hm : m ∈ g.getMoves
    · have hc : g.getMoves.contains m = true := List.elem_iff.mpr hm
      by_cases ht : g.turn % 2 = 0 <;>
        simp only [h, ht, if_true, if_false, Bool.false_eq_true, hc] <;>
        cases m <;> simp [hm]
    · have hc : g.getMoves.contains m = false := by simp [List.elem_iff, hm]
      by_cases ht : g.turn % 2 = 0 <;>
        simp only [h, ht, if_true, if_false, Bool.false_eq_true, hc] <;>
        simp [hm]

/-- A failing `make_move_fast` leaves the state untouched. -/
theorem makeMoveFast_failure (g : Gamestate) (m : Turn) :
    (g.makeMoveFast m).1 = false → (g.makeMoveFast m).2 = g := by
  unfold Gamestate.makeMoveFast Gamestate.whoseTurn
  by_cases h : g.getMoves.isEmpty
  · simp [h]
  · by_cases hc : g.getMoves.contains m = true <;>
      by_cases ht : g.turn % 2 = 0 <;>
      simp only [h, ht, hc, if_true, if_false, Bool.false_eq_true] <;>
      cases m <;> simp

/-- `make_move` returns a flip list exactly on moves of the legal-move list. -/
theorem makeMove_fst (g : Gamestate) (m : Turn) :
    (g.makeMove m).1.isSome = true ↔ m ∈ g.getMoves := by
  unfold Gamestate.makeMove Gamestate.whoseTurn
  by_cases h : g.getMoves.isEmpty
  · rw [List.isEmpty_iff] at h
    simp [h]
  · by_cases hm : m ∈ g.getMoves
    · have hc : g.getMoves.contains m = true := List.elem_iff.mpr hm
      by_cases ht : g.turn % 2 = 0 <;>
        simp only [h, ht, if_true, if_false, Bool.false_eq_true, hc] <;>
        cases m <;> simp [hm]
    · have hc : g.getMoves.contains m = false := by simp [List.elem_iff, hm]
      by_cases ht : g.turn % 2 = 0 <;>
        simp only [h, ht, if_true, if_false, Bool.false_eq_true, hc] <;>
        simp [hm]

/-- A failing `make_move` leaves the state untouched. -/
theorem makeMove_failure (g : Gamestate) (m : Turn) :
    (g.makeMove m).1 = none → (g.makeMove m).2 = g := by
  unfold Gamestate.makeMove Gamestate.whoseTurn
  by_cases h : g.getMoves.isEmpty
  · simp [h]
  · by_cases hc : g.getMoves.contains m = true <;>
      by_cases ht : g.turn % 2 = 0 <;>
      simp only [h, ht, hc, if_true, if_false, Bool.false_eq_true] <;>
      cases m <;> simp

/-- C3.  Move legality symmetry: `make_move` returns `Some` and
`make_move_fast` returns `true` exactly when the move is in the legal
move list; on failure the state (board and turn counter) is unchanged. -/
theorem c3_move_legality_symmetry (g : Gamestate) (m : Turn) :
    ((g.makeMove m).1.isSome = true ↔ m ∈ g.getMoves) ∧
    ((g.makeMoveFast m).1 = true ↔ m ∈ g.getMoves) ∧
    ((g.makeMove m).1 = none → (g.makeMove m).2 = g) ∧
    ((g.makeMoveFast m).1 = false → (g.makeMoveFast m).2 = g) :=
  ⟨makeMove_fst g m, makeMoveFast_fst g m, makeMove_failure g m, makeMoveFast_failure g m⟩

/-- C4.  `gen_moves` returns the mover's coordinate moves wrapped as
non-Pass moves when one exists, exactly `[Pass]` when only the opponent
can move and `[]` when neither side can; in particular a list containing
Pass is exactly `[Pass]`, with the opponent able to move. -/
theorem c4_legal_move_structure (g : Gamestate) :
    (g.genMoves =
      if (g.board.getMoves g.currentPlayer).isEmpty then
        if (g.board.getMoves g.currentPlayer.opponentOf).isEmpty then []
        else [none]
      else (g.board.getMoves g.currentPlayer).map some) ∧
    (none ∈ g.genMoves →
      g.genMoves = [none] ∧
        ¬(g.board.getMoves g.currentPlayer.opponentOf).isEmpty = true) := by
  have hmain : g.genMoves =
      if (g.board.getMoves g.currentPlayer).isEmpty then
        if (g.board.getMoves g.currentPlayer.opponentOf).isEmpty then []
        else [none]
      else (g.board.getMoves g.currentPlayer).map some := by
    unfold Gamestate.genMoves Gamestate.currentPlayer Players.opponentOf
    by_cases ht : g.turn % 2 = 0 <;>
      simp only [ht, if_true, if_false] <;>
      by_cases hme : (g.board.getMoves (if g.turn % 2 = 0 then Players.black
        else Players.white)).isEmpty <;>
      by_cases hop : (g.board.getMoves (if g.turn % 2 = 0 then Players.white
        else Players.black)).isEmpty <;>
      simp_all
  refine ⟨hmain, fun hpass => ?_⟩
  rw [hmain] at hpass ⊢
  by_cases hme : (g.board.getMoves g.currentPlayer).isEmpty <;>
    by_cases hop : (g.board.getMoves g.currentPlayer.opponentOf).isEmpty <;>
    simp_all

/-! ## Theorems: flip equivalence (claim C7) -/

/-- `flip_toward_fast_help` is `flip_toward` with the list replaced by
its classification: same final board, `Valid` exactly when at least one
tile flips. -/
theorem flipTowardFastHelp_spec (fuel : Nat) :
    ∀ (b : Board) (x y dx dy : Nat) (o : Players),
      b.flipTowardFastHelp fuel x y dx dy o =
        (flipResultType (b.flipToward fuel x y dx dy o).1,
         (b.flipToward fuel x y dx dy o).2) := by
  induction fuel with
  | zero => intro b x y dx dy o; rfl
  | succ fuel ih =>
    intro b x y dx dy o
    rw [Board.flipTowardFastHelp, Board.flipToward]
    cases hat : b.at ((x + dx) % 256) ((y + dy) % 256) with
    | none => simp [flipResultType]
    | some s =>
      cases s with
      | empty => simp [flipResultType]
      | taken q =>
        by_cases ho : o = q
        · simp [ho, flipResultType]
        · simp only [ho, if_true, if_false, ne_eq, not_false_iff]
          rw [ih]
          cases hrec : (b.flipToward fuel ((x + dx) % 256) ((y + dy) % 256) dx dy o) with
          | mk r b' =>
            cases r with
            | none => simp [flipResultType]
            | some l => cases l <;> simp [flipResultType]

/-- Lockstep equivalence of the direction loops of `flip_all` and
`flip_all_fast`. -/
theorem flipAllGo_fast_spec (dirs : List (Nat × Nat)) :
    ∀ (b : Board) (x y : Nat) (o : Players),
      (b.flipAllFastGo x y o dirs).2 = (b.flipAllGo x y o dirs).2 ∧
      ((b.flipAllFastGo x y o dirs).1 = true ↔ (b.flipAllGo x y o dirs).1 ≠ []) := by
  induction dirs with
  | nil => intro b x y o; simp [Board.flipAllGo, Board.flipAllFastGo]
  | cons d rest ih =>
    intro b x y o
    rw [Board.flipAllGo, Board.flipAllFastGo, flipTowardFastHelp_spec]
    cases hray : b.flipToward 16 x y d.1 d.2 o with
    | mk r b' =>
      obtain ⟨ihb, ihv⟩ := ih b' x y o
      cases hrest : b'.flipAllGo x y o rest with
      | mk places b'' =>
        cases hrestf : b'.flipAllFastGo x y o rest with
        | mk any bf'' =>
          rw [hrest, hrestf] at ihb ihv
          simp only at ihb ihv
          subst ihb
          cases r with
          | none => simp [flipResultType, hrest, hrestf, ihv]
          | some l =>
            cases l with
            | nil => simp [flipResultType, hrest, hrestf, ihv]
            | cons p ps => simp [flipResultType, hrest, hrestf, ihv]

/-- C7.  `flip_all` and `flip_all_fast` are observationally equivalent:
from equal boards they produce equal boards, and the fast variant
reports `true` exactly when the slow variant returns a non-empty list of
flipped cells. -/
theorem c7_flip_all_equivalence (b : Board) (x y : Nat) :
    (b.flipAllFast x y).2 = (b.flipAll x y).2 ∧
    ((b.flipAllFast x y).1 = true ↔ (b.flipAll x y).1 ≠ []) := by
  unfold Board.flipAll Board.flipAllFast
  cases hat : b.at x y with
  | none => simp
  | some s =>
    cases s with
    | empty => simp
    | taken origin => exact flipAllGo_fast_spec AROUND b x y origin

/-! ## Theorems: the move-history codec (claim C9) -/

/-- Splitting a separator-free string yields one token. -/
theorem splitOnChar_no_sep (sep : Char) :
    ∀ xs : List Char, (∀ c ∈ xs, c ≠ sep) → splitOnChar sep xs = [xs] := by
  intro xs
  induction xs with
  | nil => intro _; rfl
  | cons c rest ih =>
    intro h
    have hc : c ≠ sep := h c (by simp)
    have hrest := ih fun d hd => h d (by simp [hd])
    rw [splitOnChar] at hrest ⊢
    simp only [List.foldr_cons, hc, if_false]
    rw [hrest]

/-- Splitting peels off a separator-free token before a separator. -/
theorem splitOnChar_append_sep (sep : Char) :
    ∀ (xs rest : List Char), (∀ c ∈ xs, c ≠ sep) →
      splitOnChar sep (xs ++ sep :: rest) = xs :: splitOnChar sep rest := by
  intro xs rest
  induction xs with
  | nil => intro _; rw [splitOnChar]; simp [splitOnChar, List.foldr_cons]
  | cons c xs0 ih =>
    intro h
    have hc : c ≠ sep := h c (by simp)
    have hxs := ih fun d hd => h d (by simp [hd])
    rw [splitOnChar] at hxs ⊢
    simp only [List.cons_append, List.foldr_cons] at hxs ⊢
    rw [hxs]
    simp [hc]

/-- A coordinate token for coordinates below 8: it round-trips through
`str_to_loc`, is not empty, and contains no `;`. -/
theorem coordToken_roundtrip :
    ∀ x, x < 8 → ∀ y, y < 8 →
      strToLoc (natChars x ++ ',' :: natChars y) = some (x, y) ∧
      (natChars x ++ ',' :: natChars y) ≠ [] ∧
      (∀ c ∈ natChars x ++ ',' :: natChars y, c ≠ ';') := by
  decide

theorem turnsToStr_eq (ts : List Turn) :
    turnsToStr ts = List.intercalate [';'] (ts.map turnChars) := rfl

theorem turnChars_no_semi (t : Turn) (h : ∀ x y, t = some (x, y) → x < 8 ∧ y < 8) :
    ∀ c ∈ turnChars t, c ≠ ';' := by
  cases t with
  | none => simp [turnChars]
  | some p =>
    obtain ⟨x, y⟩ := p
    obtain ⟨hx, hy⟩ := h x y rfl
    exact (coordToken_roundtrip x hx y hy).2.2

/-- Rendering a non-empty in-range turn list and splitting it back
recovers the per-turn tokens. -/
theorem splitOnChar_turnsToStr :
    ∀ ts : List Turn, ts ≠ [] → (∀ x y, some (x, y) ∈ ts → x < 8 ∧ y < 8) →
      splitOnChar ';' (turnsToStr ts) = ts.map turnChars := by
  intro ts
  induction ts with
  | nil => intro h; exact absurd rfl h
  | cons t rest ih =>
    intro _ hin
    have htok : ∀ c ∈ turnChars t, c ≠ ';' :=
      turnChars_no_semi t fun x y hxy => hin x y (by simp [hxy])
    cases rest with
    | nil =>
      rw [turnsToStr_eq]
      simp only [List.map_cons, List.map_nil]
      rw [show List.intercalate [';'] [turnChars t] = turnChars t by
        simp [List.intercalate, List.intersperse]]
      exact splitOnChar_no_sep ';' (turnChars t) htok
    | cons u rest0 =>
      have hrest := ih (by simp) fun x y hxy => hin x y (by simp [List.mem_cons] at hxy ⊢; tauto)
      rw [turnsToStr_eq] at hrest ⊢
      simp only [List.map_cons] at hrest ⊢
      rw [show List.intercalate [';'] (turnChars t :: turnChars u :: rest0.map turnChars) =
            turnChars t ++ [';'] ++ List.intercalate [';'] (turnChars u :: rest0.map turnChars) by
        simp [List.intercalate, List.intersperse]]
      rw [List.append_assoc, List.singleton_append]
      rw [splitOnChar_append_sep ';' (turnChars t) _ htok]
      rw [hrest]

/-- The parser loop of `str_to_turns` inverts per-turn rendering. -/
theorem strToTurns_go_map :
    ∀ ts : List Turn, (∀ x y, some (x, y) ∈ ts → x < 8 ∧ y < 8) →
      strToTurns.go (ts.map turnChars) = some ts := by
  intro ts
  induction ts with
  | nil => intro _; rfl
  | cons t rest ih =>
    intro hin
    have hrest := ih fun x y hxy => hin x y (by simp [List.mem_cons] at hxy ⊢; tauto)
    cases t with
    | none =>
      simp [turnChars, strToTurns.go, hrest]
    | some p =>
      obtain ⟨x, y⟩ := p
      obtain ⟨hx, hy⟩ := hin x y (by simp)
      obtain ⟨hloc, hne, _⟩ := coordToken_roundtrip x hx y hy
      simp only [List.map_cons, turnChars]
      rw [strToTurns.go]
      simp [hne, hloc, hrest]

/-- `str_to_loc` only accepts coordinates below 8. -/
theorem strToLoc_lt (cs : List Char) (x y : Nat) :
    strToLoc cs = some (x, y) → x < 8 ∧ y < 8 := by
  intro h
  simp only [strToLoc] at h
  repeat' split at h
  all_goals first
    | (cases h; assumption)
    | exact absurd h (by simp)

/-- Tokens of a string the parser accepts are empty or in-range locations. -/
theorem strToTurns_go_accepts :
    ∀ toks : List (List Char), (strToTurns.go toks).isSome = true →
      ∀ tok ∈ toks, tok = [] ∨ ∃ x y, strToLoc tok = some (x, y) ∧ x < 8 ∧ y < 8 := by
  intro toks
  induction toks with
  | nil => intro _ tok htok; simp at htok
  | cons trial rest ih =>
    intro hsome tok htok
    rw [strToTurns.go] at hsome
    by_cases htr : trial = []
    · simp only [htr, if_true] at hsome
      rcases List.mem_cons.mp htok with h | h
      · exact Or.inl (h.trans htr)
      · exact ih (by cases hgo : strToTurns.go rest <;> simp [hgo] at hsome ⊢) tok h
    · simp only [htr, if_false] at hsome
      cases hloc : strToLoc trial with
      | none => rw [hloc] at hsome; simp at hsome
      | some p =>
        rw [hloc] at hsome
        rcases List.mem_cons.mp htok with h | h
        · subst h
          obtain ⟨x, y⟩ := p
          exact Or.inr ⟨x, y, hloc, strToLoc_lt tok x y hloc⟩
        · exact ih (by cases hgo : strToTurns.go rest <;> simp [hgo] at hsome ⊢) tok h


/-- C9 (amended).  The codec parses the example string to the expected
turn list; parse inverts render on every non-empty turn list whose
coordinates are below 8 (in particular on every parser output); and any
accepted string has only tokens that are empty or that `str_to_loc`
accepts as an in-range pair. -/
theorem c9_codec_amended :
    (strToTurns ("4,5;5,3;;3,2;2,3".toList) =
      some [some (4, 5), some (5, 3), none, some (3, 2), some (2, 3)]) ∧
    (∀ ts : List Turn, ts ≠ [] → (∀ x y, some (x, y) ∈ ts → x < 8 ∧ y < 8) →
      strToTurns (turnsToStr ts) = some ts) ∧
    (∀ cs : List Char, (strToTurns cs).isSome = true →
      ∀ tok ∈ splitOnChar ';' cs,
        tok = [] ∨ ∃ x y, strToLoc tok = some (x, y) ∧ x < 8 ∧ y < 8) := by
  refine ⟨by decide, fun ts hne hin => ?_, fun cs hsome tok htok => ?_⟩
  · rw [strToTurns, splitOnChar_turnsToStr ts hne hin]
    exact strToTurns_go_map ts hin
  · rw [strToTurns] at hsome
    exact strToTurns_go_accepts (splitOnChar ';' cs) hsome tok htok

/-- C9 counterexample.  The string `"1,2,3"` contains a token that is
not a pair of integers, yet the parser accepts it, and rendering the
parse does not give the string back. -/
theorem c9_codec_counterexample :
    strToTurns ("1,2,3".toList) = some [some (1, 2)] ∧
    turnsToStr [some (1, 2)] = "1,2".toList ∧
    turnsToStr [some (1, 2)] ≠ "1,2,3".toList := by
  refine ⟨by decide, by decide, by decide⟩



/-- C8 (amended).  The derived `PartialEq` of `Gamestate` compares the
board, the turn counter *and* the `RefCell` move cache: two states are
equal iff all three fields agree.  Equality still implies that boards
and turn counters agree, but the converse fails (see the counterexample). -/
theorem c8_gamestate_equality_amended (a b : GamestateC) :
    a = b ↔ a.board = b.board ∧ a.turn = b.turn ∧ a.movesCache = b.movesCache := by
  constructor
  · intro h; subst h; exact ⟨rfl, rfl, rfl⟩
  · rintro ⟨h1, h2, h3⟩; cases a; cases b; simp_all

/-- C8 counterexample.  Computing the cached move list (a `get_moves`
call) yields a state with the same board and turn counter as a fresh
state, yet the two compare unequal under the derived equality. -/
theorem c8_gamestate_equality_counterexample :
    (GamestateC.new.getMoves).2.board = GamestateC.new.board ∧
    (GamestateC.new.getMoves).2.turn = GamestateC.new.turn ∧
    (GamestateC.new.getMoves).2 ≠ GamestateC.new := by
  refine ⟨rfl, rfl, by decide⟩

/-- C1.  The score the code computes differs from the mandated UCB1
score: for a child with 1 win out of 2 visits under a parent total of
`e` and `c = 1`, the code's formula gives `3/2` while the UCB1 formula
gives `1/2 + sqrt(1/2) < 3/2`. -/
theorem c1_uct_exploration_denominator :
    uctScoreCode 1 1 2 (Real.exp 1) = 3 / 2 ∧
    uctScoreSpec 1 1 2 (Real.exp 1) = 1 / 2 + Real.sqrt (1 / 2) ∧
    uctScoreCode 1 1 2 (Real.exp 1) ≠ uctScoreSpec 1 1 2 (Real.exp 1) := by
  have hcode : uctScoreCode 1 1 2 (Real.exp 1) = 3 / 2 := by
    rw [uctScoreCode, Real.log_exp]
    norm_num
  have hspec : uctScoreSpec 1 1 2 (Real.exp 1) = 1 / 2 + Real.sqrt (1 / 2) := by
    rw [uctScoreSpec, Real.log_exp]
    norm_num
  refine ⟨hcode, hspec, ?_⟩
  rw [hcode, hspec]
  have hlt : Real.sqrt (1 / 2) < 1 := by
    rw [show (1 : ℝ) = Real.sqrt 1 from Real.sqrt_one.symm]
    exact Real.sqrt_lt_sqrt (by norm_num) (by norm_num)
  intro h
  linarith



@[simp] theorem McstNode.children_mk (cs : List (Turn × McstNode)) (w t : Nat)
    (g : Gamestate) : (McstNode.mk cs w t g).children = cs := rfl

@[simp] theorem McstNode.wins_mk (cs : List (Turn × McstNode)) (w t : Nat)
    (g : Gamestate) : (McstNode.mk cs w t g).wins = w := rfl

@[simp] theorem McstNode.total_mk (cs : List (Turn × McstNode)) (w t : Nat)
    (g : Gamestate) : (McstNode.mk cs w t g).total = t := rfl

@[simp] theorem McstNode.game_mk (cs : List (Turn × McstNode)) (w t : Nat)
    (g : Gamestate) : (McstNode.mk cs w t g).game = g := rfl

theorem McstNode.eta (n : McstNode) :
    McstNode.mk n.children n.wins n.total n.game = n := by
  cases n; rfl

@[simp] theorem McstNode.update_children (n : McstNode) (win : Bool) :
    (n.update win).children = n.children := rfl

@[simp] theorem McstNode.update_game (n : McstNode) (win : Bool) :
    (n.update win).game = n.game := rfl

theorem McstNode.update_total (n : McstNode) (win : Bool) :
    (n.update win).total = n.total + 1 := rfl

theorem McstNode.update_wins (n : McstNode) (win : Bool) :
    (n.update win).wins = if win then n.wins + 1 else n.wins := rfl

theorem childGet_append (cs ds : List (Turn × McstNode)) (t : Turn) :
    childGet (cs ++ ds) t =
      match childGet cs t with
      | some v => some v
      | none => childGet ds t := by
  induction cs with
  | nil => simp [childGet]
  | cons p rest ih =>
    obtain ⟨k, v⟩ := p
    by_cases hk : k = t <;> simp [childGet, hk, ih]

theorem childGet_replace_self (cs : List (Turn × McstNode)) (t : Turn)
    (c c' : McstNode) (h : childGet cs t = some c) :
    childGet (childReplace cs t c') t = some c' := by
  induction cs with
  | nil => simp [childGet] at h
  | cons p rest ih =>
    obtain ⟨k, v⟩ := p
    by_cases hk : k = t
    · simp [childGet, childReplace, hk]
    · simp only [childGet, childReplace, hk, if_false] at h ⊢
      exact ih h

theorem childGet_replace_other (cs : List (Turn × McstNode)) (t u : Turn)
    (c' : McstNode) (hu : u ≠ t) :
    childGet (childReplace cs t c') u = childGet cs u := by
  induction cs with
  | nil => simp [childReplace]
  | cons p rest ih =>
    obtain ⟨k, v⟩ := p
    by_cases hk : k = t
    · subst hk
      simp [childGet, childReplace, Ne.symm hu]
    · by_cases hku : k = u
      · subst hku
        simp [childGet, childReplace, hk, hu, ih]
      · simp [childGet, childReplace, hk, hku, ih]



/-- `add_child` panics (returns `none`) exactly when the path is
invalid, the child exists, or the move is illegal at the node. -/
theorem addChildAt_none_iff :
    ∀ (path : List Turn) (n : McstNode) (link : Turn),
      n.addChildAt path link = none ↔
        n.search path = none ∨
          ∃ m, n.search path = some m ∧
            (childContains m.children link = true ∨ (m.game.makeMoveFast link).1 = false) := by
  intro path
  induction path with
  | nil =>
    intro n link
    rw [McstNode.addChildAt, McstNode.search]
    by_cases hc : childContains n.children link
    · simp [hc]
    · cases hmv : n.game.makeMoveFast link with
      | mk ok g' => cases ok <;> simp [hc, hmv]
  | cons t rest ih =>
    intro n link
    rw [McstNode.addChildAt, McstNode.search]
    cases hg : childGet n.children t with
    | none => simp
    | some c =>
      simp only
      cases hrec : c.addChildAt rest link with
      | none =>
        simp only [true_iff]
        exact (ih c link).mp hrec
      | some c' =>
        simp only [reduceCtorEq, false_iff]
        intro hbad
        have := (ih c link).mpr hbad
        rw [hrec] at this
        exact Option.noConfusion this



/-- A successful `add_child` reaches a node passing all three checks and
rebuilds it with exactly one appended child, a fresh leaf carrying the
node's game with `link` applied. -/
theorem addChildAt_some :
    ∀ (path : List Turn) (n n' : McstNode) (link : Turn),
      n.addChildAt path link = some n' →
      ∃ m, n.search path = some m ∧
        childContains m.children link = false ∧
        (m.game.makeMoveFast link).1 = true ∧
        n'.search path = some (McstNode.mk
          (m.children ++ [(link, McstNode.new (m.game.makeMoveFast link).2)])
          m.wins m.total m.game) ∧
        n'.search (path ++ [link]) =
          some (McstNode.new (m.game.makeMoveFast link).2) := by
  intro path
  induction path with
  | nil =>
    intro n n' link h
    rw [McstNode.addChildAt] at h
    by_cases hc : childContains n.children link
    · simp [hc] at h
    · simp only [hc, Bool.false_eq_true, if_false] at h
      cases hmv : n.game.makeMoveFast link with
      | mk ok g' =>
        rw [hmv] at h
        cases ok
        · exact absurd h (by simp)
        · simp only [Option.some_inj] at h
          subst h
          refine ⟨n, rfl, by simpa using hc, by simp [hmv], ?_, ?_⟩
          · rw [McstNode.search]
            simp [hmv]
          · rw [List.nil_append, McstNode.search]
            have hnone : childGet n.children link = none := by
              unfold childContains at hc
              cases hg : childGet n.children link with
              | none => rfl
              | some v => rw [hg] at hc; simp at hc
            simp only [McstNode.children_mk]
            rw [childGet_append, hnone]
            simp [childGet, hmv, McstNode.search]
  | cons t rest ih =>
    intro n n' link h
    rw [McstNode.addChildAt] at h
    cases hg : childGet n.children t with
    | none => rw [hg] at h; exact absurd h (by simp)
    | some c =>
      rw [hg] at h
      simp only at h
      cases hrec : c.addChildAt rest link with
      | none => rw [hrec] at h; exact absurd h (by simp)
      | some c' =>
        rw [hrec] at h
        simp only [Option.some_inj] at h
        subst h
        obtain ⟨m, hm1, hm2, hm3, hm4, hm5⟩ := ih c c' link hrec
        refine ⟨m, ?_, hm2, hm3, ?_, ?_⟩
        · rw [McstNode.search, hg]; exact hm1
        · rw [McstNode.search]
          simp only [McstNode.children_mk]
          rw [childGet_replace_self n.children t c c' hg]
          exact hm4
        · rw [List.cons_append, McstNode.search]
          simp only [McstNode.children_mk]
          rw [childGet_replace_self n.children t c c' hg]
          exact hm5

/-- `add_child` preserves every pre-existing node's statistics and game. -/
theorem addChildAt_preserves :
    ∀ (path : List Turn) (n n' : McstNode) (link : Turn),
      n.addChildAt path link = some n' →
      ∀ q m₀, n.search q = some m₀ →
        ∃ m₀', n'.search q = some m₀' ∧
          m₀'.wins = m₀.wins ∧ m₀'.total = m₀.total ∧ m₀'.game = m₀.game := by
  intro path
  induction path with
  | nil =>
    intro n n' link h q m₀ hq
    rw [McstNode.addChildAt] at h
    by_cases hc : childContains n.children link
    · simp [hc] at h
    · simp only [hc, Bool.false_eq_true, if_false] at h
      cases hmv : n.game.makeMoveFast link with
      | mk ok g' =>
        rw [hmv] at h
        cases ok
        · exact absurd h (by simp)
        · simp only [Option.some_inj] at h
          subst h
          cases q with
          | nil =>
            rw [McstNode.search] at hq
            simp only [Option.some_inj] at hq
            subst hq
            exact ⟨_, rfl, by simp, by simp, by simp⟩
          | cons u qrest =>
            rw [McstNode.search] at hq ⊢
            simp only [McstNode.children_mk]
            rw [childGet_append]
            cases hgu : childGet n.children u with
            | none => rw [hgu] at hq; exact absurd hq (by simp)
            | some d =>
              rw [hgu] at hq
              exact ⟨m₀, hq, rfl, rfl, rfl⟩
  | cons t rest ih =>
    intro n n' link h q m₀ hq
    rw [McstNode.addChildAt] at h
    cases hg : childGet n.children t with
    | none => rw [hg] at h; exact absurd h (by simp)
    | some c =>
      rw [hg] at h
      simp only at h
      cases hrec : c.addChildAt rest link with
      | none => rw [hrec] at h; exact absurd h (by simp)
      | some c' =>
        rw [hrec] at h
        simp only [Option.some_inj] at h
        subst h
        cases q with
        | nil =>
          rw [McstNode.search] at hq
          simp only [Option.some_inj] at hq
          subst hq
          exact ⟨_, rfl, by simp, by simp, by simp⟩
        | cons u qrest =>
          rw [McstNode.search] at hq ⊢
          simp only [McstNode.children_mk]
          by_cases hu : u = t
          · subst hu
            rw [hg] at hq
            rw [childGet_replace_self n.children u c c' hg]
            exact ih c c' link hrec qrest m₀ hq
          · rw [childGet_replace_other n.children t u c' hu]
            cases hgu : childGet n.children u with
            | none => rw [hgu] at hq; exact absurd hq (by simp)
            | some d =>
              rw [hgu] at hq
              exact ⟨m₀, hq, rfl, rfl, rfl⟩



/-- Back-propagation succeeds on every valid path. -/
theorem incrementPath_isSome :
    ∀ (path : List Turn) (n : McstNode) (win : Bool),
      (n.search path).isSome = true → (n.incrementPath path win).isSome = true := by
  intro path
  induction path with
  | nil => intro n win _; rw [McstNode.incrementPath]; rfl
  | cons t rest ih =>
    intro n win h
    rw [McstNode.search] at h
    rw [McstNode.incrementPath]
    cases hg : childGet n.children t with
    | none => rw [hg] at h; simp at h
    | some c =>
      rw [hg] at h
      have := ih c win h
      cases hrec : c.incrementPath rest win with
      | none => rw [hrec] at this; simp at this
      | some c' => simp [hrec]

/-- Back-propagation adds one visit (and conditionally one win) to the
node addressed by every prefix of the path. -/
theorem incrementPath_prefix :
    ∀ (path : List Turn) (n n' : McstNode) (win : Bool),
      n.incrementPath path win = some n' →
      ∀ i, i ≤ path.length →
        ∃ m m', n.search (path.take i) = some m ∧ n'.search (path.take i) = some m' ∧
          m'.total = m.total + 1 ∧
          m'.wins = (if win then m.wins + 1 else m.wins) ∧
          m'.game = m.game := by
  intro path
  induction path with
  | nil =>
    intro n n' win h i hi
    rw [McstNode.incrementPath] at h
    simp only [Option.some_inj] at h
    subst h
    simp only [List.length_nil, Nat.le_zero] at hi
    subst hi
    exact ⟨n, n.update win, rfl, rfl, McstNode.update_total n win,
      McstNode.update_wins n win, McstNode.update_game n win⟩
  | cons t rest ih =>
    intro n n' win h i hi
    rw [McstNode.incrementPath] at h
    cases hg : childGet n.children t with
    | none => rw [hg] at h; exact absurd h (by simp)
    | some c =>
      rw [hg] at h
      simp only at h
      cases hrec : c.incrementPath rest win with
      | none => rw [hrec] at h; exact absurd h (by simp)
      | some c' =>
        rw [hrec] at h
        simp only [Option.some_inj] at h
        subst h
        cases i with
        | zero =>
          refine ⟨n, _, rfl, rfl, by simp, by simp, by simp⟩
        | succ j =>
          have hj : j ≤ rest.length := by simpa using hi
          obtain ⟨m, m', hm, hm', ht, hw, hgm⟩ := ih c c' win hrec j hj
          refine ⟨m, m', ?_, ?_, ht, hw, hgm⟩
          · rw [List.take_succ_cons, McstNode.search, hg]; exact hm
          · rw [List.take_succ_cons, McstNode.search]
            simp only [McstNode.children_mk]
            rw [childGet_replace_self n.children t c c' hg]
            exact hm'

/-- Back-propagation leaves every node not addressed by a prefix of the
path exactly as it was. -/
theorem incrementPath_offpath :
    ∀ (path : List Turn) (n n' : McstNode) (win : Bool),
      n.incrementPath path win = some n' →
      ∀ q, ¬ q <+: path → ∀ m₀, n.search q = some m₀ → n'.search q = some m₀ := by
  intro path
  induction path with
  | nil =>
    intro n n' win h q hq m₀ hm
    rw [McstNode.incrementPath] at h
    simp only [Option.some_inj] at h
    subst h
    cases q with
    | nil => exact absurd (List.nil_prefix) hq
    | cons u qrest =>
      rw [McstNode.search] at hm ⊢
      simpa using hm
  | cons t rest ih =>
    intro n n' win h q hq m₀ hm
    rw [McstNode.incrementPath] at h
    cases hg : childGet n.children t with
    | none => rw [hg] at h; exact absurd h (by simp)
    | some c =>
      rw [hg] at h
      simp only at h
      cases hrec : c.incrementPath rest win with
      | none => rw [hrec] at h; exact absurd h (by simp)
      | some c' =>
        rw [hrec] at h
        simp only [Option.some_inj] at h
        subst h
        cases q with
        | nil => exact absurd (List.nil_prefix) hq
        | cons u qrest =>
          rw [McstNode.search] at hm ⊢
          simp only [McstNode.children_mk]
          by_cases hu : u = t
          · subst hu
            rw [hg] at hm
            rw [childGet_replace_self n.children u c c' hg]
            refine ih c c' win hrec qrest ?_ m₀ hm
            intro hpre
            exact hq (List.cons_prefix_cons.mpr ⟨rfl, hpre⟩)
          · rw [childGet_replace_other n.children t u c' hu]
            cases hgu : childGet n.children u with
            | none => rw [hgu] at hm; exact absurd hm (by simp)
            | some d => rw [hgu] at hm; exact hm



/-- C10.  `McstTree::add_child` panics (modelled `none`) exactly when
the path addresses no node, the link is already a child there, or the
link is not a legal move in the addressed node's game; otherwise it
succeeds and inserts exactly one new child, reached by `link`, whose
game is the addressed node's game with `link` applied, leaving every
pre-existing node's statistics and game unchanged. -/
theorem c10_add_child_safety (tree : McstTree) (path : List Turn) (link : Turn) :
    (tree.addChild path link = none ↔
      tree.root.search path = none ∨
        ∃ m, tree.root.search path = some m ∧
          (childContains m.children link = true ∨ link ∉ m.game.getMoves)) ∧
    (∀ t', tree.addChild path link = some t' →
      ∃ m, tree.root.search path = some m ∧
        childContains m.children link = false ∧ link ∈ m.game.getMoves ∧
        t'.root.search path = some (McstNode.mk
          (m.children ++ [(link, McstNode.new (m.game.makeMoveFast link).2)])
          m.wins m.total m.game) ∧
        t'.root.search (path ++ [link]) = some (McstNode.new (m.game.makeMoveFast link).2) ∧
        (∀ q m₀, tree.root.search q = some m₀ →
          ∃ m₀', t'.root.search q = some m₀' ∧
            m₀'.wins = m₀.wins ∧ m₀'.total = m₀.total ∧ m₀'.game = m₀.game)) := by
  constructor
  · rw [show (tree.addChild path link = none ↔ tree.root.addChildAt path link = none) by
      unfold McstTree.addChild
      cases tree.root.addChildAt path link <;> simp]
    rw [addChildAt_none_iff path tree.root link]
    constructor
    · rintro (h | ⟨m, hm, hc⟩)
      · exact Or.inl h
      · refine Or.inr ⟨m, hm, ?_⟩
        rcases hc with hc | hc
        · exact Or.inl hc
        · refine Or.inr fun hmem => ?_
          rw [(makeMoveFast_fst m.game link).mpr hmem] at hc
          exact Bool.noConfusion hc
    · rintro (h | ⟨m, hm, hc⟩)
      · exact Or.inl h
      · refine Or.inr ⟨m, hm, ?_⟩
        rcases hc with hc | hc
        · exact Or.inl hc
        · refine Or.inr ?_
          cases hmv : (m.game.makeMoveFast link).1 with
          | false => rfl
          | true => exact absurd ((makeMoveFast_fst m.game link).mp hmv) hc
  · intro t' h
    have hr : tree.root.addChildAt path link = some t'.root := by
      unfold McstTree.addChild at h
      cases hrec : tree.root.addChildAt path link with
      | none => rw [hrec] at h; exact absurd h (by simp)
      | some r =>
        rw [hrec] at h
        simp only [Option.map_some', Option.some_inj] at h
        rw [← h]
    obtain ⟨m, hm1, hm2, hm3, hm4, hm5⟩ := addChildAt_some path tree.root t'.root link hr
    exact ⟨m, hm1, hm2, (makeMoveFast_fst m.game link).mp hm3, hm4, hm5,
      addChildAt_preserves path tree.root t'.root link hr⟩



/-- A rollout starting at a terminal game cannot report an illegal move. -/
theorem rolloutLoop_terminal (rollA oppA : Gamestate → Turn) (myColor : Players)
    (fuel : Nat) (game : Gamestate) (myTurn : Bool) (hist : List Turn)
    (e : RolloutError) (ht : game.isTerminal = true) :
    rolloutLoop rollA oppA myColor fuel game myTurn hist ≠ some (Except.error e) := by
  cases fuel with
  | zero => simp [rolloutLoop]
  | succ fuel => simp [rolloutLoop, ht]

/-- What the expansion step can produce on success. -/
theorem expandStep_ok (expander : McstTree → List Turn → Turn) (tree : McstTree)
    (selected : McstNode) (path p' : List Turn) (t₁ : McstTree)
    (h : expandStep expander tree selected path = some (Except.ok (p', t₁))) :
    (selected.game.isTerminal = true ∧ p' = path ∧ t₁ = tree) ∨
    (selected.game.isTerminal = false ∧
      ∃ link, tree.addChild path link = some t₁ ∧ p' = path ++ [link]) := by
  rw [expandStep] at h
  by_cases hterm : selected.game.isTerminal
  · simp only [hterm, if_true, Option.some_inj, Except.ok.injEq, Prod.mk.injEq] at h
    exact Or.inl ⟨hterm, h.1.symm, h.2.symm⟩
  · simp only [hterm, if_false, Bool.false_eq_true] at h
    by_cases hlegal : selected.game.getMoves.contains (expander tree path)
    · rw [if_pos hlegal] at h
      by_cases hcont : childContains selected.children (expander tree path)
      · simp [hcont] at h
      · simp only [hcont, Bool.false_eq_true, if_false] at h
        cases hadd : tree.addChild path (expander tree path) with
        | none => rw [hadd] at h; exact absurd h (by simp)
        | some tree' =>
          rw [hadd] at h
          simp only [Option.some_inj, Except.ok.injEq, Prod.mk.injEq] at h
          refine Or.inr ⟨by simpa using hterm, expander tree path, ?_, h.1.symm⟩
          rw [hadd, h.2]
    · rw [if_neg hlegal] at h
      simp at h



/-- The shape of a cycle that returns an error: selection and expansion
errors leave the tree untouched; a rollout error leaves the tree with
the one child the expansion step attached. -/
theorem cycle_error_shape (fuel : Nat) (sel : McstTree → Option (List Turn))
    (exp : McstTree → List Turn → Turn) (ra oa : Gamestate → Turn)
    (tree : McstTree) (e : CycleError) (t' : McstTree)
    (h : cycle fuel sel exp ra oa tree = some (Except.error e, t')) :
    (∃ se, e = CycleError.selection se ∧ t' = tree) ∨
    (∃ ee, e = CycleError.expansion ee ∧ t' = tree) ∨
    (∃ re p l, e = CycleError.rollout re ∧ tree.addChild p l = some t') := by
  rw [cycle] at h
  split at h
  · simp at h
  · rename_i path hsel
    split at h
    · rename_i hsearch
      simp only [Option.some_inj, Prod.mk.injEq, Except.error.injEq] at h
      exact Or.inl ⟨SelectionError.notANode path, h.1.symm, h.2.symm⟩
    · rename_i selected hsearch
      split at h
      · simp at h
      · rename_i ee hexp
        simp only [Option.some_inj, Prod.mk.injEq, Except.error.injEq] at h
        exact Or.inr (Or.inl ⟨ee, h.1.symm, h.2.symm⟩)
      · rename_i res p' t₁ hexp
        split at h
        · simp at h
        · rename_i node hsearch'
          split at h
          · simp at h
          · rename_i myColor hwt
            split at h
            · simp at h
            · rename_i re hroll
              simp only [Option.some_inj, Prod.mk.injEq, Except.error.injEq] at h
              obtain ⟨he, ht'⟩ := h
              rcases expandStep_ok exp tree selected path p' t₁ hexp with
                ⟨hterm, hp, htr⟩ | ⟨hterm, link, hadd, hp⟩
              · subst hp
                subst htr
                rw [hsearch] at hsearch'
                have hns : selected = node := by simpa using hsearch'
                subst hns
                exact absurd hroll
                  (rolloutLoop_terminal ra oa myColor fuel selected.game _ [] re hterm)
              · exact Or.inr (Or.inr ⟨re, path, link, he.symm, ht' ▸ hadd⟩)
            · rename_i win hroll
              split at h <;> simp at h



/-- The shape of a successful cycle: after a possibly skipped expansion
producing tree `t₁` and final path `path`, back-propagation rebuilds the
root by `incrementPath`. -/
theorem cycle_ok_shape (fuel : Nat) (sel : McstTree → Option (List Turn))
    (exp : McstTree → List Turn → Turn) (ra oa : Gamestate → Turn)
    (tree t' : McstTree)
    (h : cycle fuel sel exp ra oa tree = some (Except.ok true, t')) :
    ∃ t₁ path win,
      (t₁ = tree ∨ ∃ p l, tree.addChild p l = some t₁ ∧ path = p ++ [l]) ∧
      t₁.root.incrementPath path win = some t'.root := by
  rw [cycle] at h
  split at h
  · simp at h
  · rename_i path hsel
    split at h
    · simp at h
    · rename_i selected hsearch
      split at h
      · simp at h
      · simp at h
      · rename_i res p' t₁ hexp
        split at h
        · simp at h
        · rename_i node hsearch'
          split at h
          · simp at h
          · rename_i myColor hwt
            split at h
            · simp at h
            · simp at h
            · rename_i win hroll
              split at h
              · rename_i root' hinc
                simp only [Option.some_inj, Prod.mk.injEq, Except.ok.injEq] at h
                refine ⟨t₁, p', win, ?_, ?_⟩
                · rcases expandStep_ok exp tree selected path p' t₁ hexp with
                    ⟨_, hp, htr⟩ | ⟨_, link, hadd, hp⟩
                  · exact Or.inl htr
                  · exact Or.inr ⟨path, link, hadd, hp⟩
                · rw [hinc, ← h.2]
              · simp at h



/-- A successful cycle adds exactly one visit at the root. -/
theorem cycle_root_total (fuel : Nat) (sel : McstTree → Option (List Turn))
    (exp : McstTree → List Turn → Turn) (ra oa : Gamestate → Turn)
    (tree t' : McstTree)
    (h : cycle fuel sel exp ra oa tree = some (Except.ok true, t')) :
    t'.root.total = tree.root.total + 1 := by
  obtain ⟨t₁, path, win, hexp, hinc⟩ := cycle_ok_shape fuel sel exp ra oa tree t' h
  have h₁ : t₁.root.total = tree.root.total := by
    rcases hexp with rfl | ⟨p, l, hadd, _⟩
    · rfl
    · have hr : tree.root.addChildAt p l = some t₁.root := by
        unfold McstTree.addChild at hadd
        cases hrec : tree.root.addChildAt p l with
        | none => rw [hrec] at hadd; exact absurd hadd (by simp)
        | some r =>
          rw [hrec] at hadd
          simp only [Option.map_some', Option.some_inj] at hadd
          rw [← hadd]
      obtain ⟨m₀', hs, _, ht, _⟩ :=
        addChildAt_preserves p tree.root t₁.root l hr [] tree.root rfl
      rw [McstNode.search] at hs
      simp only [Option.some_inj] at hs
      rw [← hs] at ht
      exact ht
  obtain ⟨m, m', hm, hm', htot, _, _⟩ :=
    incrementPath_prefix path t₁.root t'.root win hinc 0 (Nat.zero_le _)
  rw [List.take_zero, McstNode.search] at hm hm'
  simp only [Option.some_inj] at hm hm'
  rw [← hm, ← hm'] at htot
  rw [htot, h₁]

/-- After `k` successful cycles the root has gained `k` visits. -/
theorem runCycles_total (fuel : Nat) (sel : McstTree → Option (List Turn))
    (exp : McstTree → List Turn → Turn) (ra oa : Gamestate → Turn) :
    ∀ (k : Nat) (tree t' : McstTree),
      runCycles fuel sel exp ra oa k tree = some t' →
      t'.root.total = tree.root.total + k := by
  intro k
  induction k with
  | zero =>
    intro tree t' h
    rw [runCycles] at h
    simp only [Option.some_inj] at h
    rw [← h]
    rfl
  | succ k ih =>
    intro tree t' h
    rw [runCycles] at h
    split at h
    · rename_i t₁ hcyc
      have := ih t₁ t' h
      rw [this, cycle_root_total fuel sel exp ra oa tree t₁ hcyc]
      omega
    · simp at h



/-- Unwrapping `McstTree.addChild` to the node-level operation. -/
theorem McstTree.addChild_some (tree t' : McstTree) (p : List Turn) (l : Turn)
    (h : tree.addChild p l = some t') :
    tree.root.addChildAt p l = some t'.root := by
  unfold McstTree.addChild at h
  cases hrec : tree.root.addChildAt p l with
  | none => rw [hrec] at h; exact absurd h (by simp)
  | some r =>
    rw [hrec] at h
    simp only [Option.map_some', Option.some_inj] at h
    rw [← h]

/-- C2 (amended).  A selection or expansion error aborts the cycle with
the tree unchanged; a rollout error leaves every pre-existing node's
statistics and game unchanged but retains the one child attached during
the expansion step, which runs before the rollout. -/
theorem c2_error_mutation_amended (fuel : Nat) (sel : McstTree → Option (List Turn))
    (exp : McstTree → List Turn → Turn) (ra oa : Gamestate → Turn)
    (tree : McstTree) (e : CycleError) (t' : McstTree)
    (h : cycle fuel sel exp ra oa tree = some (Except.error e, t')) :
    (∀ se, e = CycleError.selection se → t' = tree) ∧
    (∀ ee, e = CycleError.expansion ee → t' = tree) ∧
    (∀ re, e = CycleError.rollout re →
      (∃ p l, tree.addChild p l = some t') ∧
      ∀ q m, tree.root.search q = some m →
        ∃ m', t'.root.search q = some m' ∧
          m'.wins = m.wins ∧ m'.total = m.total ∧ m'.game = m.game) := by
  rcases cycle_error_shape fuel sel exp ra oa tree e t' h with
    ⟨se, he, htr⟩ | ⟨ee, he, htr⟩ | ⟨re, p, l, he, hadd⟩
  · subst he
    exact ⟨fun _ _ => htr, fun ee hee => CycleError.noConfusion hee,
      fun re hre => CycleError.noConfusion hre⟩
  · subst he
    exact ⟨fun se hse => CycleError.noConfusion hse, fun _ _ => htr,
      fun re hre => CycleError.noConfusion hre⟩
  · subst he
    refine ⟨fun se hse => CycleError.noConfusion hse,
      fun ee hee => CycleError.noConfusion hee,
      fun re' _ => ⟨⟨p, l, hadd⟩, ?_⟩⟩
    exact addChildAt_preserves p tree.root t'.root l
      (McstTree.addChild_some tree t' p l hadd)

/-- C2 counterexample.  The concrete run returns a rollout `CycleError`,
yet the returned tree has one child where the input tree had none: an
erroring cycle did mutate the tree, against the claim. -/
theorem c2_error_mutation_counterexample :
    (c2run.map fun r => r.1) =
      some (Except.error (CycleError.rollout (RolloutError.illegalMove [some (0, 0)]))) ∧
    (c2run.map fun r => r.2.root.children.length) = some 1 ∧
    c2tree.root.children.length = 0 := by
  exact ⟨rfl, rfl, rfl⟩

/-- Witness for the amended C2 at the concrete erroring run. -/
theorem c2_error_mutation_amended_witness :
    (∀ se, CycleError.rollout (RolloutError.illegalMove [some (0, 0)]) =
        CycleError.selection se → c2treeAfter = c2tree) ∧
    (∀ ee, CycleError.rollout (RolloutError.illegalMove [some (0, 0)]) =
        CycleError.expansion ee → c2treeAfter = c2tree) ∧
    (∀ re, CycleError.rollout (RolloutError.illegalMove [some (0, 0)]) =
        CycleError.rollout re →
      (∃ p l, c2tree.addChild p l = some c2treeAfter) ∧
      ∀ q m, c2tree.root.search q = some m →
        ∃ m', c2treeAfter.root.search q = some m' ∧
          m'.wins = m.wins ∧ m'.total = m.total ∧ m'.game = m.game) :=
  c2_error_mutation_amended 10 selectRoot (expandConst (some (2, 3)))
    (agentConst (some (0, 0))) (agentConst (some (0, 0))) c2tree
    (CycleError.rollout (RolloutError.illegalMove [some (0, 0)])) c2treeAfter rfl



/-- C6.  A successful cycle back-propagates along the final path: the
node at every one of the `L+1` prefixes of the path (root included)
gains exactly one visit, and one win exactly when the rollout was a win,
while every node not addressed by a prefix is untouched; and `k`
successful cycles from a fresh tree leave the root with `k` visits. -/
theorem c6_backprop_depth_accounting :
    (∀ (fuel : Nat) (sel : McstTree → Option (List Turn))
        (exp : McstTree → List Turn → Turn) (ra oa : Gamestate → Turn)
        (tree t' : McstTree),
      cycle fuel sel exp ra oa tree = some (Except.ok true, t') →
      ∃ (t₁ : McstTree) (path : List Turn) (win : Bool),
        (t₁ = tree ∨ ∃ p l, tree.addChild p l = some t₁ ∧ path = p ++ [l]) ∧
        (∀ i, i ≤ path.length → ∃ m m',
          t₁.root.search (path.take i) = some m ∧
          t'.root.search (path.take i) = some m' ∧
          m'.total = m.total + 1 ∧
          m'.wins = (if win then m.wins + 1 else m.wins)) ∧
        (∀ q, ¬ q <+: path → ∀ m₀,
          t₁.root.search q = some m₀ → t'.root.search q = some m₀)) ∧
    (∀ (fuel : Nat) (sel : McstTree → Option (List Turn))
        (exp : McstTree → List Turn → Turn) (ra oa : Gamestate → Turn)
        (k : Nat) (g : Gamestate) (t' : McstTree),
      runCycles fuel sel exp ra oa k (McstTree.new g) = some t' →
      t'.root.total = k) := by
  constructor
  · intro fuel sel exp ra oa tree t' h
    obtain ⟨t₁, path, win, hexp, hinc⟩ := cycle_ok_shape fuel sel exp ra oa tree t' h
    refine ⟨t₁, path, win, hexp, ?_, ?_⟩
    · intro i hi
      obtain ⟨m, m', hm, hm', ht, hw, _⟩ :=
        incrementPath_prefix path t₁.root t'.root win hinc i hi
      exact ⟨m, m', hm, hm', ht, hw⟩
    · exact incrementPath_offpath path t₁.root t'.root win hinc
  · intro fuel sel exp ra oa k g t' h
    have := runCycles_total fuel sel exp ra oa k (McstTree.new g) t' h
    simpa [McstTree.new, McstNode.new] using this

/-- Witness for C6: one concrete successful cycle on the near-terminal
game leaves the root with one visit (it had none), exercising the
accounting part at `k = 1`. -/
theorem c6_backprop_depth_accounting_witness :
    ((runCycles 10 selectRoot (expandConst (some (0, 0)))
        (agentConst none) (agentConst none) 1 (McstTree.new nearEndGame)).map
      fun t => t.root.total) = some 1 ∧
    (McstTree.new nearEndGame).root.total = 0 := ⟨rfl, rfl⟩



/-- Searching a one-step path is a child lookup. -/
theorem McstNode.search_single (n : McstNode) (t : Turn) :
    n.search [t] = childGet n.children t := by
  rw [McstNode.search]
  cases childGet n.children t with
  | none => rfl
  | some c => rfl

/-- `McstTree.addChild` fails exactly when the node operation fails. -/
theorem McstTree.addChild_eq_none (tree : McstTree) (p : List Turn) (l : Turn) :
    tree.addChild p l = none ↔ tree.root.addChildAt p l = none := by
  unfold McstTree.addChild
  cases tree.root.addChildAt p l <;> simp

theorem childContains_eq_false_iff (cs : List (Turn × McstNode)) (t : Turn) :
    childContains cs t = false ↔ childGet cs t = none := by
  unfold childContains
  cases childGet cs t <;> simp

/-- C5.  `next_two_moves`: an illegal pair returns `false` and leaves
the tree (hence its root game) unchanged; a legal pair re-roots at the
`mv1`→`mv2` grandchild, whose game is the old root game with both moves
applied, and when that grandchild already existed the new root *is* that
grandchild node, so the whole preserved subtree keeps its statistics.
The two hypotheses say the tree's first two levels carry the games
`add_child` gave them, which holds for every tree the agent builds. -/
theorem c5_rebase_invariance (tree : McstTree) (mv1 mv2 : Turn)
    (h1 : ∀ c1, childGet tree.root.children mv1 = some c1 →
      c1.game = (tree.root.game.makeMoveFast mv1).2)
    (h2 : ∀ c1 c2, childGet tree.root.children mv1 = some c1 →
      childGet c1.children mv2 = some c2 →
      c2.game = (c1.game.makeMoveFast mv2).2) :
    ((tree.root.game.makeMovesFast [mv1, mv2]).1 = false →
      nextTwoMoves tree mv1 mv2 = some (false, tree)) ∧
    ((tree.root.game.makeMovesFast [mv1, mv2]).1 = true →
      ∃ t', nextTwoMoves tree mv1 mv2 = some (true, t') ∧
        t'.root.game = (tree.root.game.makeMovesFast [mv1, mv2]).2 ∧
        (∀ c1 c2, childGet tree.root.children mv1 = some c1 →
          childGet c1.children mv2 = some c2 → t'.root = c2)) := by
  constructor
  · intro hf
    rw [nextTwoMoves, if_pos hf]
  · intro htr
    cases hmv1 : tree.root.game.makeMoveFast mv1 with
    | mk ok1 g1 =>
      cases ok1 with
      | false =>
        rw [show tree.root.game.makeMovesFast [mv1, mv2] = (false, g1) by
          simp only [Gamestate.makeMovesFast, hmv1]] at htr
        exact absurd htr (by simp)
      | true =>
        cases hmv2 : g1.makeMoveFast mv2 with
        | mk ok2 g2 =>
          cases ok2 with
          | false =>
            rw [show tree.root.game.makeMovesFast [mv1, mv2] = (false, g2) by
              simp only [Gamestate.makeMovesFast, hmv1, hmv2]] at htr
            exact absurd htr (by simp)
          | true =>
            have hseq : tree.root.game.makeMovesFast [mv1, mv2] = (true, g2) := by
              simp only [Gamestate.makeMovesFast, hmv1, hmv2]
            rw [nextTwoMoves, if_neg (by rw [hseq]; simp)]
            by_cases hc1 : childContains tree.root.children mv1
            · -- the mv1 child already exists
              obtain ⟨c1, hcg1⟩ := Option.isSome_iff_exists.mp hc1
              have hg1 : c1.game = g1 := by rw [h1 c1 hcg1, hmv1]
              by_cases hc2 : childContains c1.children mv2
              · -- the grandchild exists: it becomes the root unchanged
                obtain ⟨c2, hcg2⟩ := Option.isSome_iff_exists.mp hc2
                have hg2 : c2.game = g2 := by
                  rw [h2 c1 c2 hcg1 hcg2, hg1, hmv2]
                simp only [hc1, if_true, hcg1, hc2, hcg2]
                refine ⟨⟨c2⟩, rfl, ?_, ?_⟩
                · rw [hseq]; exact hg2
                · intro c1' c2' hcg1' hcg2'
                  obtain rfl : c1 = c1' := Option.some_inj.mp hcg1'
                  rw [hcg2] at hcg2'
                  obtain rfl : c2 = c2' := Option.some_inj.mp hcg2'
                  rfl
              · -- attach the grandchild to the existing child
                have hnone2 : childGet c1.children mv2 = none :=
                  (childContains_eq_false_iff c1.children mv2).mp (by simpa using hc2)
                have hnn : ¬ tree.addChild [mv1] mv2 = none := by
                  rw [McstTree.addChild_eq_none, addChildAt_none_iff]
                  push_neg
                  constructor
                  · rw [McstNode.search_single, hcg1]; simp
                  · intro m hm
                    rw [McstNode.search_single, hcg1] at hm
                    obtain rfl : c1 = m := Option.some_inj.mp hm
                    constructor
                    · simpa using hc2
                    · rw [hg1, hmv2]; simp
                obtain ⟨t₂, hstep2⟩ := Option.ne_none_iff_exists'.mp hnn
                obtain ⟨m, hm1, _, _, hm4, _⟩ :=
                  addChildAt_some [mv1] tree.root t₂.root mv2
                    (McstTree.addChild_some tree t₂ [mv1] mv2 hstep2)
                rw [McstNode.search_single, hcg1] at hm1
                obtain rfl : c1 = m := Option.some_inj.mp hm1
                rw [McstNode.search_single] at hm4
                have hgrand : childGet (McstNode.mk
                    (c1.children ++ [(mv2, McstNode.new (c1.game.makeMoveFast mv2).2)])
                    c1.wins c1.total c1.game).children mv2 =
                    some (McstNode.new (c1.game.makeMoveFast mv2).2) := by
                  simp only [McstNode.children_mk]
                  rw [childGet_append, hnone2]
                  simp [childGet]
                simp only [hc1, if_true, hcg1, hc2, Bool.false_eq_true, if_false,
                  hstep2, hm4, hgrand]
                refine ⟨⟨McstNode.new (c1.game.makeMoveFast mv2).2⟩, rfl, ?_, ?_⟩
                · rw [hseq]
                  show (c1.game.makeMoveFast mv2).2 = g2
                  rw [hg1, hmv2]
                · intro c1' c2' hcg1' hcg2'
                  obtain rfl : c1 = c1' := Option.some_inj.mp hcg1'
                  rw [hnone2] at hcg2'
                  exact absurd hcg2' (by simp)
            · -- attach the mv1 child first, then the grandchild
              have hnone1 : childGet tree.root.children mv1 = none :=
                (childContains_eq_false_iff tree.root.children mv1).mp (by simpa using hc1)
              have hnn1 : ¬ tree.addChild [] mv1 = none := by
                rw [McstTree.addChild_eq_none, addChildAt_none_iff]
                push_neg
                constructor
                · simp [McstNode.search]
                · intro m hm
                  rw [McstNode.search] at hm
                  obtain rfl : tree.root = m := Option.some_inj.mp hm
                  constructor
                  · simpa using hc1
                  · rw [hmv1]; simp
              obtain ⟨t₁, hstep1⟩ := Option.ne_none_iff_exists'.mp hnn1
              obtain ⟨m, hm1, _, _, _, hm5⟩ :=
                addChildAt_some [] tree.root t₁.root mv1
                  (McstTree.addChild_some tree t₁ [] mv1 hstep1)
              rw [McstNode.search] at hm1
              obtain rfl : tree.root = m := Option.some_inj.mp hm1
              rw [List.nil_append, McstNode.search_single] at hm5
              have hmg : (McstNode.new (tree.root.game.makeMoveFast mv1).2).game = g1 := by
                show (tree.root.game.makeMoveFast mv1).2 = g1
                rw [hmv1]
              have hnn2 : ¬ t₁.addChild [mv1] mv2 = none := by
                rw [McstTree.addChild_eq_none, addChildAt_none_iff]
                push_neg
                constructor
                · rw [McstNode.search_single, hm5]; simp
                · intro m' hm'
                  rw [McstNode.search_single, hm5] at hm'
                  obtain rfl : _ = m' := Option.some_inj.mp hm'
                  constructor
                  · simp [McstNode.new, childContains, childGet]
                  · rw [hmg, hmv2]; simp
              obtain ⟨t₂, hstep2⟩ := Option.ne_none_iff_exists'.mp hnn2
              obtain ⟨m', hm1', _, _, hm4', _⟩ :=
                addChildAt_some [mv1] t₁.root t₂.root mv2
                  (McstTree.addChild_some t₁ t₂ [mv1] mv2 hstep2)
              rw [McstNode.search_single, hm5] at hm1'
              obtain rfl : _ = m' := Option.some_inj.mp hm1'
              rw [McstNode.search_single] at hm4'
              have hgrand : childGet (McstNode.mk
                  ((McstNode.new (tree.root.game.makeMoveFast mv1).2).children ++
                    [(mv2, McstNode.new ((McstNode.new (tree.root.game.makeMoveFast mv1).2).game.makeMoveFast mv2).2)])
                  (McstNode.new (tree.root.game.makeMoveFast mv1).2).wins
                  (McstNode.new (tree.root.game.makeMoveFast mv1).2).total
                  (McstNode.new (tree.root.game.makeMoveFast mv1).2).game).children mv2 =
                  some (McstNode.new ((McstNode.new (tree.root.game.makeMoveFast mv1).2).game.makeMoveFast mv2).2) := by
                simp [McstNode.new, childGet]
              simp only [hc1, Bool.false_eq_true, if_false, hstep1, hm5,
                show childContains (McstNode.new (tree.root.game.makeMoveFast mv1).2).children mv2 = false from rfl,
                hstep2, hm4', hgrand]
              refine ⟨_, rfl, ?_, ?_⟩
              · rw [hseq]
                show ((McstNode.new (tree.root.game.makeMoveFast mv1).2).game.makeMoveFast mv2).2 = g2
                rw [hmg, hmv2]
              · intro c1' c2' hcg1' hcg2'
                rw [hnone1] at hcg1'
                exact absurd hcg1' (by simp)



/-- Witness for C5 at a concrete input: the fresh opening tree advanced
past the legal pair Black (2,3), White (2,2); the fresh tree has no
children, so the well-formedness hypotheses hold vacuously. -/
theorem c5_rebase_invariance_witness :
    (((McstTree.new Gamestate.new).root.game.makeMovesFast
        [some (2, 3), some (2, 2)]).1 = false →
      nextTwoMoves (McstTree.new Gamestate.new) (some (2, 3)) (some (2, 2)) =
        some (false, McstTree.new Gamestate.new)) ∧
    (((McstTree.new Gamestate.new).root.game.makeMovesFast
        [some (2, 3), some (2, 2)]).1 = true →
      ∃ t', nextTwoMoves (McstTree.new Gamestate.new) (some (2, 3)) (some (2, 2)) =
          some (true, t') ∧
        t'.root.game = ((McstTree.new Gamestate.new).root.game.makeMovesFast
          [some (2, 3), some (2, 2)]).2 ∧
        (∀ c1 c2, childGet (McstTree.new Gamestate.new).root.children (some (2, 3)) = some c1 →
          childGet c1.children (some (2, 2)) = some c2 → t'.root = c2)) :=
  c5_rebase_invariance (McstTree.new Gamestate.new) (some (2, 3)) (some (2, 2))
    (fun c1 h => by simp [McstTree.new, McstNode.new, childGet] at h)
    (fun c1 c2 h _ => by simp [McstTree.new, McstNode.new, childGet] at h)


end Othello
